import Mathlib

/-!
Verification of the noop SBF program (src/programs/sbf/c/src/noop/noop.c)
against its specification.  The program deserializes an input buffer into a
fixed capacity parameter block and returns a status code.  A byte is
modelled as a Nat (well formed when below 256) and a buffer as a List Nat.
The deserialization routine itself lives in an SDK header that is not part
of the repository sources, so it is modelled from the specification.
-/

/-- One parsed account slot: the AccountDescriptor of the specification,
matching one SafeAccountInfo array element of noop.c.  The flags field
collects the ownership flags, lamports is the balance, data the data
region, owner the owner identifier, executable the executable flag and
rentEpoch the rent epoch counter. -/
structure SafeAccountInfo where
  flags : Nat
  lamports : Nat
  data : List Nat
  owner : List Nat
  executable : Nat
  rentEpoch : Nat
deriving DecidableEq

/-- The parsed call context: the ParameterBlock of the specification,
matching the SafeParameters value of noop.c.  ka is the ordered account
sequence, data the instruction data and programId the trailing
identifier. -/
structure SafeParameters where
  ka : List SafeAccountInfo
  data : List Nat
  programId : List Nat
deriving DecidableEq

/-- Typed deserialization errors, as listed in section 7 of the
specification. -/
inductive DeserializeError where
  | truncated
  | tooManyAccounts
  | malformedLength
deriving DecidableEq

deriving instance DecidableEq for Except

/-- Little endian value of a byte list. -/
def decodeLE : List Nat → Nat
  | [] => 0
  | b :: bs => b + 256 * decodeLE bs

/-- Little endian encoding of a value in w bytes. -/
def encodeLE : Nat → Nat → List Nat
  | 0, _ => []
  | w + 1, v => v % 256 :: encodeLE w (v / 256)

/-- The contiguous slice of len bytes of buf starting at offset off. -/
def bytesAt (buf : List Nat) (off len : Nat) : List Nat :=
  (buf.drop off).take len

/-- Read n raw bytes at cursor c, returning the bytes and the advanced
cursor, or the Truncated error when the buffer is too short. -/
def readBytes (buf : List Nat) (c n : Nat) :
    Except DeserializeError (List Nat × Nat) :=
  if c + n ≤ buf.length then .ok (bytesAt buf c n, c + n)
  else .error .truncated

/-- Read an n byte little endian unsigned integer at cursor c. -/
def readWord (buf : List Nat) (c n : Nat) :
    Except DeserializeError (Nat × Nat) :=
  match readBytes buf c n with
  | .error e => .error e
  | .ok (bs, c2) => .ok (decodeLE bs, c2)

/-- Modelled from the spec: one step of the account loop of the missing
sol_deserialize routine (the SDK header sol/deserialize.h is not part of
the repository sources).  Parses one fixed layout account record at cursor
c: flags (1 byte), balance (8 bytes), data length (8 bytes), data bytes,
owner identifier (32 bytes), executable flag (1 byte), epoch counter
(8 bytes), and returns the record with the advanced cursor, or Truncated
when the buffer ends mid record. -/
def parseAccount (buf : List Nat) (c : Nat) :
    Except DeserializeError (SafeAccountInfo × Nat) :=
  match readWord buf c 1 with
  | .error e => .error e
  | .ok (flags, c1) =>
  match readWord buf c1 8 with
  | .error e => .error e
  | .ok (lamports, c2) =>
  match readWord buf c2 8 with
  | .error e => .error e
  | .ok (dataLen, c3) =>
  match readBytes buf c3 dataLen with
  | .error e => .error e
  | .ok (data, c4) =>
  match readBytes buf c4 32 with
  | .error e => .error e
  | .ok (owner, c5) =>
  match readWord buf c5 1 with
  | .error e => .error e
  | .ok (executable, c6) =>
  match readWord buf c6 8 with
  | .error e => .error e
  | .ok (rentEpoch, c7) =>
    .ok (⟨flags, lamports, data, owner, executable, rentEpoch⟩, c7)

/-- Modelled from the spec: the account loop of the missing sol_deserialize
routine, parsing k fixed layout account records in order from cursor c. -/
def parseAccounts (buf : List Nat) : Nat → Nat →
    Except DeserializeError (List SafeAccountInfo × Nat)
  | 0, c => .ok ([], c)
  | k + 1, c =>
    match parseAccount buf c with
    | .error e => .error e
    | .ok (a, c1) =>
    match parseAccounts buf k c1 with
    | .error e => .error e
    | .ok (as, c2) => .ok (a :: as, c2)

/-- Modelled from the spec: the missing sol_deserialize routine of the SDK
header sol/deserialize.h, with the final cursor kept for reasoning.  Steps,
following section 4.1 of the specification: read the leading 8 byte count;
fail with TooManyAccounts when the count exceeds maxAccounts; parse count
fixed layout account records in order; read the length prefixed instruction
data segment; read the trailing 32 byte identifier; any read past the end
of the buffer fails with Truncated. -/
def parseAux (buf : List Nat) (maxAccounts : Nat) :
    Except DeserializeError (SafeParameters × Nat) :=
  match readWord buf 0 8 with
  | .error e => .error e
  | .ok (count, c0) =>
  if count > maxAccounts then .error .tooManyAccounts else
  match parseAccounts buf count c0 with
  | .error e => .error e
  | .ok (ka, c1) =>
  match readWord buf c1 8 with
  | .error e => .error e
  | .ok (dataLen, c2) =>
  match readBytes buf c2 dataLen with
  | .error e => .error e
  | .ok (data, c3) =>
  match readBytes buf c3 32 with
  | .error e => .error e
  | .ok (programId, c4) => .ok (⟨ka, data, programId⟩, c4)

/-- Modelled from the spec: the parse contract of section 4.1,
parse(buffer, max_accounts) returning a ParameterBlock or a typed
DeserializeError. -/
def parse (buf : List Nat) (maxAccounts : Nat) :
    Except DeserializeError SafeParameters :=
  match parseAux buf maxAccounts with
  | .error e => .error e
  | .ok (p, _) => .ok p

/-- Modelled from the spec: the boolean convention of the C routine, true
exactly when parse succeeds. -/
def sol_deserialize (input : List Nat) (maxAccounts : Nat) : Bool :=
  match parse input maxAccounts with
  | .ok _ => true
  | .error _ => false

/-- Success status code of the SDK, value 0. -/
def SUCCESS : Nat := 0

/-- Modelled from the spec: the nonzero invalid argument status code of the
SDK (builtin error 1 shifted into the upper 32 bits). -/
def ERROR_INVALID_ARGUMENT : Nat := 2 ^ 32

/-- Capacity of the stack array ka of noop.c, its SAFE_ARRAY_SIZE. -/
def ka_capacity : Nat := 1

/-- The entrypoint of noop.c: deserialize the input with the capacity of
the one element ka array and return ERROR_INVALID_ARGUMENT when that
fails, SUCCESS otherwise. -/
def entrypoint (input : List Nat) : Nat :=
  if sol_deserialize input ka_capacity = false then ERROR_INVALID_ARGUMENT
  else SUCCESS

/-- Byte for byte serialization of one account record in the fixed layout
the parser expects. -/
def serializeAccount (a : SafeAccountInfo) : List Nat :=
  encodeLE 1 a.flags ++ encodeLE 8 a.lamports ++ encodeLE 8 a.data.length ++
    a.data ++ a.owner ++ encodeLE 1 a.executable ++ encodeLE 8 a.rentEpoch

/-- Byte for byte serialization of a ParameterBlock in the layout of
section 6 of the specification. -/
def serialize (p : SafeParameters) : List Nat :=
  encodeLE 8 p.ka.length ++ (p.ka.map serializeAccount).flatten ++
    encodeLE 8 p.data.length ++ p.data ++ p.programId

/-- Field bounds that make one account record representable in the fixed
layout. -/
def wfAccount (a : SafeAccountInfo) : Prop :=
  a.flags < 2 ^ 8 ∧ a.lamports < 2 ^ 64 ∧ a.data.length < 2 ^ 64 ∧
    a.owner.length = 32 ∧ a.executable < 2 ^ 8 ∧ a.rentEpoch < 2 ^ 64

/-- Field bounds that make a ParameterBlock representable in the layout. -/
def wfParams (p : SafeParameters) : Prop :=
  p.ka.length < 2 ^ 64 ∧ (∀ a ∈ p.ka, wfAccount a) ∧
    p.data.length < 2 ^ 64 ∧ p.programId.length = 32

/-- A buffer is a byte sequence when every entry is below 256. -/
def isBytes (buf : List Nat) : Prop := ∀ b ∈ buf, b < 256

instance : DecidablePred wfAccount := fun a => by
  unfold wfAccount
  infer_instance

instance : DecidablePred wfParams := fun p => by
  unfold wfParams wfAccount
  infer_instance

instance : DecidablePred isBytes := fun buf => by
  unfold isBytes
  infer_instance

/-- Sample account record used by the concrete witnesses. -/
def accW : SafeAccountInfo :=
  ⟨1, 5, [7, 7], List.replicate 32 3, 0, 9⟩

/-- Sample parameter block used by the concrete witnesses. -/
def pbW : SafeParameters :=
  ⟨[accW], [4, 4, 4], List.replicate 32 2⟩

theorem encodeLE_length (w v : Nat) : (encodeLE w v).length = w := by
  induction w generalizing v with
  | zero => simp [encodeLE]
  | succ w ih => simp [encodeLE, ih]

theorem decodeLE_encodeLE (w v : Nat) (h : v < 256 ^ w) :
    decodeLE (encodeLE w v) = v := by
  induction w generalizing v with
  | zero => simp [encodeLE, decodeLE]; omega
  | succ w ih =>
    have hlt : v / 256 < 256 ^ w := by
      rw [Nat.div_lt_iff_lt_mul (by omega)]
      calc v < 256 ^ (w + 1) := h
        _ = 256 ^ w * 256 := by ring
    simp [encodeLE, decodeLE, ih _ hlt]
    omega

theorem decodeLE_lt (l : List Nat) (h : ∀ b ∈ l, b < 256) :
    decodeLE l < 256 ^ l.length := by
  induction l with
  | nil => simp [decodeLE]
  | cons b bs ih =>
    have hb : b < 256 := h b (by simp)
    have hbs : decodeLE bs < 256 ^ bs.length := ih (fun x hx => h x (by simp [hx]))
    simp only [decodeLE, List.length_cons, pow_succ]
    calc b + 256 * decodeLE bs < 256 + 256 * decodeLE bs := by omega
      _ = 256 * (decodeLE bs + 1) := by ring
      _ ≤ 256 * 256 ^ bs.length := by
          exact Nat.mul_le_mul_left _ (by omega)
      _ = 256 ^ bs.length * 256 := by ring

theorem slice_length (buf : List Nat) (off len : Nat)
    (h : off + len ≤ buf.length) : (bytesAt buf off len).length = len := by
  simp [bytesAt]
  omega

theorem serializeAccount_length (a : SafeAccountInfo) :
    (serializeAccount a).length = a.data.length + a.owner.length + 26 := by
  simp [serializeAccount, encodeLE_length, List.length_append]
  omega

theorem readBytes_chunk (buf chunk rest : List Nat) (c n : Nat)
    (hc : c ≤ buf.length) (hdrop : buf.drop c = chunk ++ rest)
    (hn : chunk.length = n) :
    readBytes buf c n = .ok (chunk, c + n) ∧ c + n ≤ buf.length ∧
      buf.drop (c + n) = rest := by
  have hlen : (buf.drop c).length = buf.length - c := List.length_drop c buf
  rw [hdrop, List.length_append] at hlen
  have hle : c + n ≤ buf.length := by omega
  have hslice : bytesAt buf c n = chunk := by
    rw [bytesAt, hdrop, ← hn, List.take_left]
  have hdrop2 : buf.drop (c + n) = rest := by
    rw [← List.drop_drop n c buf, hdrop, ← hn, List.drop_left]
  exact ⟨by simp only [readBytes, if_pos hle, hslice], hle, hdrop2⟩

theorem readWord_of_readBytes {buf : List Nat} {c n : Nat} {bs : List Nat}
    {c2 : Nat} (h : readBytes buf c n = .ok (bs, c2)) :
    readWord buf c n = .ok (decodeLE bs, c2) := by
  simp only [readWord, h]

theorem parseAccount_chunk (buf rest : List Nat) (a : SafeAccountInfo)
    (c : Nat) (hwf : wfAccount a) (hc : c ≤ buf.length)
    (hdrop : buf.drop c = serializeAccount a ++ rest) :
    parseAccount buf c = .ok (a, c + (serializeAccount a).length) ∧
      c + (serializeAccount a).length ≤ buf.length ∧
      buf.drop (c + (serializeAccount a).length) = rest := by
  obtain ⟨flags, lamports, data, owner, executable, rentEpoch⟩ := a
  simp only [wfAccount] at hwf
  obtain ⟨hf, hl, hd, ho, he, hr⟩ := hwf
  have hd0 : buf.drop c = encodeLE 1 flags ++ (encodeLE 8 lamports ++
      (encodeLE 8 data.length ++ (data ++ (owner ++
        (encodeLE 1 executable ++ (encodeLE 8 rentEpoch ++ rest)))))) := by
    simpa [serializeAccount, List.append_assoc] using hdrop
  obtain ⟨r1, b1, d1⟩ :=
    readBytes_chunk buf _ _ c 1 hc hd0 (encodeLE_length 1 flags)
  obtain ⟨r2, b2, d2⟩ :=
    readBytes_chunk buf _ _ (c + 1) 8 (by omega) d1 (encodeLE_length 8 lamports)
  obtain ⟨r3, b3, d3⟩ :=
    readBytes_chunk buf _ _ (c + 1 + 8) 8 (by omega) d2
      (encodeLE_length 8 data.length)
  obtain ⟨r4, b4, d4⟩ :=
    readBytes_chunk buf _ _ (c + 1 + 8 + 8) data.length (by omega) d3 rfl
  obtain ⟨r5, b5, d5⟩ :=
    readBytes_chunk buf _ _ (c + 1 + 8 + 8 + data.length) 32 (by omega) d4 ho
  obtain ⟨r6, b6, d6⟩ :=
    readBytes_chunk buf _ _ (c + 1 + 8 + 8 + data.length + 32) 1 (by omega) d5
      (encodeLE_length 1 executable)
  obtain ⟨r7, b7, d7⟩ :=
    readBytes_chunk buf _ _ (c + 1 + 8 + 8 + data.length + 32 + 1) 8
      (by omega) d6 (encodeLE_length 8 rentEpoch)
  have hf2 : flags < 256 ^ 1 := by norm_num at hf ⊢; exact hf
  have hl2 : lamports < 256 ^ 8 := by norm_num at hl ⊢; exact hl
  have hdl2 : data.length < 256 ^ 8 := by norm_num at hd ⊢; exact hd
  have he2 : executable < 256 ^ 1 := by norm_num at he ⊢; exact he
  have hr2 : rentEpoch < 256 ^ 8 := by norm_num at hr ⊢; exact hr
  have w1 : readWord buf c 1 = .ok (flags, c + 1) := by
    rw [readWord_of_readBytes r1, decodeLE_encodeLE 1 flags hf2]
  have w2 : readWord buf (c + 1) 8 = .ok (lamports, c + 1 + 8) := by
    rw [readWord_of_readBytes r2, decodeLE_encodeLE 8 lamports hl2]
  have w3 : readWord buf (c + 1 + 8) 8 = .ok (data.length, c + 1 + 8 + 8) := by
    rw [readWord_of_readBytes r3, decodeLE_encodeLE 8 data.length hdl2]
  have w6 : readWord buf (c + 1 + 8 + 8 + data.length + 32) 1 =
      .ok (executable, c + 1 + 8 + 8 + data.length + 32 + 1) := by
    rw [readWord_of_readBytes r6, decodeLE_encodeLE 1 executable he2]
  have w7 : readWord buf (c + 1 + 8 + 8 + data.length + 32 + 1) 8 =
      .ok (rentEpoch, c + 1 + 8 + 8 + data.length + 32 + 1 + 8) := by
    rw [readWord_of_readBytes r7, decodeLE_encodeLE 8 rentEpoch hr2]
  have hrun : parseAccount buf c =
      .ok (⟨flags, lamports, data, owner, executable, rentEpoch⟩,
        c + 1 + 8 + 8 + data.length + 32 + 1 + 8) := by
    simp only [parseAccount, w1, w2, w3, r4, r5, w6, w7]
  have hslen :
      (serializeAccount ⟨flags, lamports, data, owner, executable,
        rentEpoch⟩).length = data.length + 58 := by
    rw [serializeAccount_length]
    simp
    omega
  refine ⟨?_, ?_, ?_⟩
  · rw [hrun, hslen]
    congr 1
    congr 1
    omega
  · rw [hslen]
    omega
  · have hcc : c + (serializeAccount ⟨flags, lamports, data, owner,
        executable, rentEpoch⟩).length =
        c + 1 + 8 + 8 + data.length + 32 + 1 + 8 := by
      rw [hslen]
      omega
    rw [hcc]
    exact d7

theorem parseAccounts_chunk (buf : List Nat) (as : List SafeAccountInfo)
    (rest : List Nat) (c : Nat) (hwf : ∀ a ∈ as, wfAccount a)
    (hc : c ≤ buf.length)
    (hdrop : buf.drop c = (as.map serializeAccount).flatten ++ rest) :
    parseAccounts buf as.length c =
      .ok (as, c + ((as.map serializeAccount).flatten).length) ∧
      c + ((as.map serializeAccount).flatten).length ≤ buf.length ∧
      buf.drop (c + ((as.map serializeAccount).flatten).length) = rest := by
  induction as generalizing c rest with
  | nil =>
    refine ⟨by simp [parseAccounts], by simpa using hc, ?_⟩
    simpa using hdrop
  | cons a as ih =>
    have hdrop2 : buf.drop c =
        serializeAccount a ++ ((as.map serializeAccount).flatten ++ rest) := by
      simpa [List.append_assoc] using hdrop
    obtain ⟨pa, pb, pd⟩ :=
      parseAccount_chunk buf _ a c (hwf a (by simp)) hc hdrop2
    obtain ⟨qa, qb, qd⟩ :=
      ih _ _ (fun x hx => hwf x (by simp [hx])) pb pd
    have hlen : ((List.map serializeAccount (a :: as)).flatten).length =
        (serializeAccount a).length +
          ((as.map serializeAccount).flatten).length := by
      simp
    refine ⟨?_, by rw [hlen]; omega, ?_⟩
    · show parseAccounts buf (as.length + 1) c = _
      simp only [parseAccounts, pa, qa]
      rw [hlen]
      congr 2
      omega
    · rw [hlen, show c + ((serializeAccount a).length +
        ((as.map serializeAccount).flatten).length) =
        c + (serializeAccount a).length +
          ((as.map serializeAccount).flatten).length from by omega]
      exact qd

theorem parse_serialize_core (p : SafeParameters) (max : Nat)
    (hwf : wfParams p) (hle : p.ka.length ≤ max) :
    parseAux (serialize p) max = .ok (p, (serialize p).length) := by
  obtain ⟨ka, data, programId⟩ := p
  simp only [wfParams] at hwf
  obtain ⟨h64, hacc, hd64, hpid⟩ := hwf
  simp only at h64 hacc hd64 hpid hle
  have hd0 : (serialize ⟨ka, data, programId⟩).drop 0 =
      encodeLE 8 ka.length ++ ((ka.map serializeAccount).flatten ++
        (encodeLE 8 data.length ++ (data ++ programId))) := by
    simp [serialize, List.append_assoc]
  obtain ⟨r1, b1, d1⟩ :=
    readBytes_chunk (serialize ⟨ka, data, programId⟩) _ _ 0 8 (by omega) hd0
      (encodeLE_length 8 ka.length)
  have h64b : ka.length < 256 ^ 8 := by norm_num at h64 ⊢; exact h64
  have w1 : readWord (serialize ⟨ka, data, programId⟩) 0 8 =
      .ok (ka.length, 0 + 8) := by
    rw [readWord_of_readBytes r1, decodeLE_encodeLE 8 ka.length h64b]
  obtain ⟨pa, pb, pd⟩ :=
    parseAccounts_chunk (serialize ⟨ka, data, programId⟩) ka _ (0 + 8)
      hacc b1 d1
  obtain ⟨r3, b3, d3⟩ :=
    readBytes_chunk (serialize ⟨ka, data, programId⟩) _ _
      (0 + 8 + ((ka.map serializeAccount).flatten).length) 8 pb pd
      (encodeLE_length 8 data.length)
  have hd64b : data.length < 256 ^ 8 := by norm_num at hd64 ⊢; exact hd64
  have w3 : readWord (serialize ⟨ka, data, programId⟩)
      (0 + 8 + ((ka.map serializeAccount).flatten).length) 8 =
      .ok (data.length,
        0 + 8 + ((ka.map serializeAccount).flatten).length + 8) := by
    rw [readWord_of_readBytes r3, decodeLE_encodeLE 8 data.length hd64b]
  obtain ⟨r4, b4, d4⟩ :=
    readBytes_chunk (serialize ⟨ka, data, programId⟩) _ _
      (0 + 8 + ((ka.map serializeAccount).flatten).length + 8) data.length
      b3 d3 rfl
  have d4e : (serialize ⟨ka, data, programId⟩).drop
      (0 + 8 + ((ka.map serializeAccount).flatten).length + 8 + data.length) =
      programId ++ [] := by
    rw [d4, List.append_nil]
  obtain ⟨r5, b5, d5⟩ :=
    readBytes_chunk (serialize ⟨ka, data, programId⟩) _ _
      (0 + 8 + ((ka.map serializeAccount).flatten).length + 8 + data.length)
      32 b4 d4e hpid
  have hnotover : ¬ ka.length > max := by omega
  have hrun : parseAux (serialize ⟨ka, data, programId⟩) max =
      .ok (⟨ka, data, programId⟩,
        0 + 8 + ((ka.map serializeAccount).flatten).length + 8 +
          data.length + 32) := by
    simp only [parseAux, w1, if_neg hnotover, pa, w3, r4, r5]
  rw [hrun]
  have hslen : (serialize (⟨ka, data, programId⟩ : SafeParameters)).length =
      8 + ((ka.map serializeAccount).flatten).length + 8 +
        data.length + programId.length := by
    simp [serialize, encodeLE_length]
    omega
  rw [hslen, hpid]

theorem readBytes_ok_inv {buf : List Nat} {c n : Nat} {bs : List Nat}
    {c2 : Nat} (h : readBytes buf c n = .ok (bs, c2)) :
    bs = bytesAt buf c n ∧ c2 = c + n ∧ c + n ≤ buf.length := by
  by_cases hle : c + n ≤ buf.length
  · simp only [readBytes, if_pos hle, Except.ok.injEq, Prod.mk.injEq] at h
    exact ⟨h.1.symm, h.2.symm, hle⟩
  · simp only [readBytes, if_neg hle] at h
    exact absurd h (by simp)

theorem readWord_ok_inv {buf : List Nat} {c n v c2 : Nat}
    (h : readWord buf c n = .ok (v, c2)) :
    v = decodeLE (bytesAt buf c n) ∧ c2 = c + n ∧ c + n ≤ buf.length := by
  unfold readWord at h
  cases hrb : readBytes buf c n with
  | error e => rw [hrb] at h; exact absurd h (by simp)
  | ok q =>
    obtain ⟨bs, c3⟩ := q
    rw [hrb] at h
    simp only [Except.ok.injEq, Prod.mk.injEq] at h
    obtain ⟨hbs, hc3, hle⟩ := readBytes_ok_inv hrb
    exact ⟨h.1.symm.trans (by rw [hbs]), by omega, hle⟩

theorem isBytes_bytesAt {buf : List Nat} (hb : isBytes buf) (off n : Nat) :
    ∀ b ∈ bytesAt buf off n, b < 256 := by
  intro b hbmem
  exact hb b (List.mem_of_mem_drop (List.mem_of_mem_take hbmem))

theorem decodeLE_bytesAt_lt {buf : List Nat} (hb : isBytes buf) {off n : Nat}
    (hle : off + n ≤ buf.length) :
    decodeLE (bytesAt buf off n) < 256 ^ n := by
  have := decodeLE_lt (bytesAt buf off n) (isBytes_bytesAt hb off n)
  rwa [slice_length buf off n hle] at this

theorem parseAccount_ok_inv {buf : List Nat} {c : Nat} {a : SafeAccountInfo}
    {c2 : Nat} (h : parseAccount buf c = .ok (a, c2)) :
    readWord buf c 1 = .ok (a.flags, c + 1) ∧
    readWord buf (c + 1) 8 = .ok (a.lamports, c + 1 + 8) ∧
    readWord buf (c + 1 + 8) 8 = .ok (a.data.length, c + 1 + 8 + 8) ∧
    readBytes buf (c + 1 + 8 + 8) a.data.length =
      .ok (a.data, c + 1 + 8 + 8 + a.data.length) ∧
    readBytes buf (c + 1 + 8 + 8 + a.data.length) 32 =
      .ok (a.owner, c + 1 + 8 + 8 + a.data.length + 32) ∧
    readWord buf (c + 1 + 8 + 8 + a.data.length + 32) 1 =
      .ok (a.executable, c + 1 + 8 + 8 + a.data.length + 32 + 1) ∧
    readWord buf (c + 1 + 8 + 8 + a.data.length + 32 + 1) 8 =
      .ok (a.rentEpoch, c + 1 + 8 + 8 + a.data.length + 32 + 1 + 8) ∧
    a.owner.length = 32 ∧
    c2 = c + 1 + 8 + 8 + a.data.length + 32 + 1 + 8 ∧ c2 ≤ buf.length := by
  obtain ⟨r1, h1⟩ : ∃ r, readWord buf c 1 = r := ⟨_, rfl⟩
  cases r1 with
  | error e =>
    rw [show parseAccount buf c = .error e from by
      simp only [parseAccount, h1]] at h
    exact absurd h (by simp)
  | ok q1 =>
  obtain ⟨flags, cc1⟩ := q1
  obtain ⟨hv1, he1, hb1⟩ := readWord_ok_inv h1
  subst he1
  obtain ⟨r2, h2⟩ : ∃ r, readWord buf (c + 1) 8 = r := ⟨_, rfl⟩
  cases r2 with
  | error e =>
    rw [show parseAccount buf c = .error e from by
      simp only [parseAccount, h1, h2]] at h
    exact absurd h (by simp)
  | ok q2 =>
  obtain ⟨lamports, cc2⟩ := q2
  obtain ⟨hv2, he2, hb2⟩ := readWord_ok_inv h2
  subst he2
  obtain ⟨r3, h3⟩ : ∃ r, readWord buf (c + 1 + 8) 8 = r := ⟨_, rfl⟩
  cases r3 with
  | error e =>
    rw [show parseAccount buf c = .error e from by
      simp only [parseAccount, h1, h2, h3]] at h
    exact absurd h (by simp)
  | ok q3 =>
  obtain ⟨dataLen, cc3⟩ := q3
  obtain ⟨hv3, he3, hb3⟩ := readWord_ok_inv h3
  subst he3
  obtain ⟨r4, h4⟩ : ∃ r, readBytes buf (c + 1 + 8 + 8) dataLen = r := ⟨_, rfl⟩
  cases r4 with
  | error e =>
    rw [show parseAccount buf c = .error e from by
      simp only [parseAccount, h1, h2, h3, h4]] at h
    exact absurd h (by simp)
  | ok q4 =>
  obtain ⟨data, cc4⟩ := q4
  obtain ⟨hv4, he4, hb4⟩ := readBytes_ok_inv h4
  subst he4
  obtain ⟨r5, h5⟩ : ∃ r, readBytes buf (c + 1 + 8 + 8 + dataLen) 32 = r :=
    ⟨_, rfl⟩
  cases r5 with
  | error e =>
    rw [show parseAccount buf c = .error e from by
      simp only [parseAccount, h1, h2, h3, h4, h5]] at h
    exact absurd h (by simp)
  | ok q5 =>
  obtain ⟨owner, cc5⟩ := q5
  obtain ⟨hv5, he5, hb5⟩ := readBytes_ok_inv h5
  subst he5
  obtain ⟨r6, h6⟩ : ∃ r, readWord buf (c + 1 + 8 + 8 + dataLen + 32) 1 = r :=
    ⟨_, rfl⟩
  cases r6 with
  | error e =>
    rw [show parseAccount buf c = .error e from by
      simp only [parseAccount, h1, h2, h3, h4, h5, h6]] at h
    exact absurd h (by simp)
  | ok q6 =>
  obtain ⟨executable, cc6⟩ := q6
  obtain ⟨hv6, he6, hb6⟩ := readWord_ok_inv h6
  subst he6
  obtain ⟨r7, h7⟩ :
      ∃ r, readWord buf (c + 1 + 8 + 8 + dataLen + 32 + 1) 8 = r := ⟨_, rfl⟩
  cases r7 with
  | error e =>
    rw [show parseAccount buf c = .error e from by
      simp only [parseAccount, h1, h2, h3, h4, h5, h6, h7]] at h
    exact absurd h (by simp)
  | ok q7 =>
  obtain ⟨rentEpoch, cc7⟩ := q7
  obtain ⟨hv7, he7, hb7⟩ := readWord_ok_inv h7
  subst he7
  rw [show parseAccount buf c =
      .ok (⟨flags, lamports, data, owner, executable, rentEpoch⟩,
        c + 1 + 8 + 8 + dataLen + 32 + 1 + 8) from by
    simp only [parseAccount, h1, h2, h3, h4, h5, h6, h7]] at h
  simp only [Except.ok.injEq, Prod.mk.injEq] at h
  obtain ⟨ha, hc2⟩ := h
  subst ha
  subst hc2
  have hdlen : data.length = dataLen := by
    rw [hv4]
    exact slice_length buf (c + 1 + 8 + 8) dataLen hb4
  have holen : owner.length = 32 := by
    rw [hv5]
    exact slice_length buf (c + 1 + 8 + 8 + dataLen) 32 hb5
  simp only [hdlen]
  exact ⟨h1, h2, h3, h4, h5, h6, h7, holen, by trivial, by omega⟩

theorem parseAccount_wf {buf : List Nat} {c : Nat} {a : SafeAccountInfo}
    {c2 : Nat} (hb : isBytes buf) (h : parseAccount buf c = .ok (a, c2)) :
    wfAccount a := by
  obtain ⟨e1, e2, e3, _, _, e6, e7, holen, _, _⟩ := parseAccount_ok_inv h
  obtain ⟨v1, _, b1⟩ := readWord_ok_inv e1
  obtain ⟨v2, _, b2⟩ := readWord_ok_inv e2
  obtain ⟨v3, _, b3⟩ := readWord_ok_inv e3
  obtain ⟨v6, _, b6⟩ := readWord_ok_inv e6
  obtain ⟨v7, _, b7⟩ := readWord_ok_inv e7
  simp only [wfAccount]
  refine ⟨?_, ?_, ?_, holen, ?_, ?_⟩
  · rw [v1]
    have := decodeLE_bytesAt_lt hb b1
    norm_num at this ⊢
    exact this
  · rw [v2]
    have := decodeLE_bytesAt_lt hb b2
    norm_num at this ⊢
    exact this
  · rw [v3]
    have := decodeLE_bytesAt_lt hb b3
    norm_num at this ⊢
    exact this
  · rw [v6]
    have := decodeLE_bytesAt_lt hb b6
    norm_num at this ⊢
    exact this
  · rw [v7]
    have := decodeLE_bytesAt_lt hb b7
    norm_num at this ⊢
    exact this

theorem parseAccounts_ok_facts {buf : List Nat} {k c : Nat}
    {as : List SafeAccountInfo} {c2 : Nat}
    (h : parseAccounts buf k c = .ok (as, c2)) :
    as.length = k ∧ c ≤ c2 ∧
      (∀ a ∈ as, ∃ off, off + a.data.length ≤ buf.length ∧
        a.data = bytesAt buf off a.data.length) ∧
      (isBytes buf → ∀ a ∈ as, wfAccount a) := by
  induction k generalizing c as with
  | zero =>
    simp only [parseAccounts, Except.ok.injEq, Prod.mk.injEq] at h
    obtain ⟨ha, hc⟩ := h
    subst ha
    subst hc
    exact ⟨rfl, Nat.le_refl _, by simp, by simp⟩
  | succ k ih =>
    obtain ⟨r1, h1⟩ : ∃ r, parseAccount buf c = r := ⟨_, rfl⟩
    cases r1 with
    | error e =>
      rw [show parseAccounts buf (k + 1) c = .error e from by
        simp only [parseAccounts, h1]] at h
      exact absurd h (by simp)
    | ok q1 =>
    obtain ⟨a, c1⟩ := q1
    obtain ⟨r2, h2⟩ : ∃ r, parseAccounts buf k c1 = r := ⟨_, rfl⟩
    cases r2 with
    | error e =>
      rw [show parseAccounts buf (k + 1) c = .error e from by
        simp only [parseAccounts, h1, h2]] at h
      exact absurd h (by simp)
    | ok q2 =>
    obtain ⟨as2, cc2⟩ := q2
    rw [show parseAccounts buf (k + 1) c = .ok (a :: as2, cc2) from by
      simp only [parseAccounts, h1, h2]] at h
    simp only [Except.ok.injEq, Prod.mk.injEq] at h
    obtain ⟨ha, hc⟩ := h
    subst ha
    subst hc
    obtain ⟨_, _, _, e4, _, _, _, _, hc1, hble⟩ := parseAccount_ok_inv h1
    obtain ⟨hv4, _, hb4⟩ := readBytes_ok_inv e4
    obtain ⟨ihlen, ihc, ihview, ihwf⟩ := ih h2
    refine ⟨by simp [ihlen], by omega, ?_, ?_⟩
    · intro x hx
      rcases List.mem_cons.mp hx with hxa | hxs
      · subst hxa
        exact ⟨c + 1 + 8 + 8, by omega, hv4⟩
      · exact ihview x hxs
    · intro hbytes x hx
      rcases List.mem_cons.mp hx with hxa | hxs
      · subst hxa
        exact parseAccount_wf hbytes h1
      · exact ihwf hbytes x hxs

theorem parseAux_ok_inv {buf : List Nat} {max : Nat} {p : SafeParameters}
    {c2 : Nat} (h : parseAux buf max = .ok (p, c2)) :
    ∃ c1, readWord buf 0 8 = .ok (p.ka.length, 8) ∧
      p.ka.length ≤ max ∧
      parseAccounts buf p.ka.length 8 = .ok (p.ka, c1) ∧
      readWord buf c1 8 = .ok (p.data.length, c1 + 8) ∧
      readBytes buf (c1 + 8) p.data.length =
        .ok (p.data, c1 + 8 + p.data.length) ∧
      readBytes buf (c1 + 8 + p.data.length) 32 =
        .ok (p.programId, c1 + 8 + p.data.length + 32) ∧
      p.programId.length = 32 ∧
      c2 = c1 + 8 + p.data.length + 32 ∧ c2 ≤ buf.length := by
  obtain ⟨r0, h0⟩ : ∃ r, readWord buf 0 8 = r := ⟨_, rfl⟩
  cases r0 with
  | error e =>
    rw [show parseAux buf max = .error e from by
      simp only [parseAux, h0]] at h
    exact absurd h (by simp)
  | ok q0 =>
  obtain ⟨count, cc0⟩ := q0
  obtain ⟨hv0, he0, hb0⟩ := readWord_ok_inv h0
  have he0n : cc0 = 8 := by omega
  subst he0n
  by_cases hcm : count > max
  · rw [show parseAux buf max = .error .tooManyAccounts from by
      simp only [parseAux, h0, if_pos hcm]] at h
    exact absurd h (by simp)
  obtain ⟨r1, h1⟩ : ∃ r, parseAccounts buf count 8 = r := ⟨_, rfl⟩
  cases r1 with
  | error e =>
    rw [show parseAux buf max = .error e from by
      simp only [parseAux, h0, if_neg hcm, h1]] at h
    exact absurd h (by simp)
  | ok q1 =>
  obtain ⟨ka, c1⟩ := q1
  obtain ⟨r2, h2⟩ : ∃ r, readWord buf c1 8 = r := ⟨_, rfl⟩
  cases r2 with
  | error e =>
    rw [show parseAux buf max = .error e from by
      simp only [parseAux, h0, if_neg hcm, h1, h2]] at h
    exact absurd h (by simp)
  | ok q2 =>
  obtain ⟨dataLen, cc2⟩ := q2
  obtain ⟨hv2, he2, hb2⟩ := readWord_ok_inv h2
  subst he2
  obtain ⟨r3, h3⟩ : ∃ r, readBytes buf (c1 + 8) dataLen = r := ⟨_, rfl⟩
  cases r3 with
  | error e =>
    rw [show parseAux buf max = .error e from by
      simp only [parseAux, h0, if_neg hcm, h1, h2, h3]] at h
    exact absurd h (by simp)
  | ok q3 =>
  obtain ⟨data, cc3⟩ := q3
  obtain ⟨hv3, he3, hb3⟩ := readBytes_ok_inv h3
  subst he3
  obtain ⟨r4, h4⟩ : ∃ r, readBytes buf (c1 + 8 + dataLen) 32 = r := ⟨_, rfl⟩
  cases r4 with
  | error e =>
    rw [show parseAux buf max = .error e from by
      simp only [parseAux, h0, if_neg hcm, h1, h2, h3, h4]] at h
    exact absurd h (by simp)
  | ok q4 =>
  obtain ⟨programId, cc4⟩ := q4
  obtain ⟨hv4, he4, hb4⟩ := readBytes_ok_inv h4
  subst he4
  rw [show parseAux buf max =
      .ok (⟨ka, data, programId⟩, c1 + 8 + dataLen + 32) from by
    simp only [parseAux, h0, if_neg hcm, h1, h2, h3, h4]] at h
  simp only [Except.ok.injEq, Prod.mk.injEq] at h
  obtain ⟨hp, hc2⟩ := h
  subst hp
  subst hc2
  have hcount : ka.length = count := (parseAccounts_ok_facts h1).1
  have hdlen : data.length = dataLen := by
    rw [hv3]
    exact slice_length buf (c1 + 8) dataLen hb3
  have hplen : programId.length = 32 := by
    rw [hv4]
    exact slice_length buf (c1 + 8 + dataLen) 32 hb4
  subst hcount
  subst hdlen
  exact ⟨c1, h0, Nat.not_lt.mp hcm, h1, h2, h3, h4, hplen, rfl, by omega⟩

theorem parse_ok_iff {buf : List Nat} {max : Nat} {p : SafeParameters} :
    parse buf max = .ok p ↔ ∃ c2, parseAux buf max = .ok (p, c2) := by
  unfold parse
  obtain ⟨r, hr⟩ : ∃ r, parseAux buf max = r := ⟨_, rfl⟩
  rw [hr]
  cases r with
  | error e => simp [hr]
  | ok q =>
    obtain ⟨q, cq⟩ := q
    simp only [hr, Except.ok.injEq, Prod.mk.injEq]
    constructor
    · intro hqp
      exact ⟨cq, hqp, rfl⟩
    · rintro ⟨c2, hqp, _⟩
      exact hqp

theorem parse_ok_wf {buf : List Nat} {max : Nat} {p : SafeParameters}
    (hb : isBytes buf) (h : parse buf max = .ok p) :
    wfParams p ∧ p.ka.length ≤ max := by
  obtain ⟨c2, haux⟩ := parse_ok_iff.mp h
  obtain ⟨c1, w0, hle, hacc, wd, _, _, hpid, _, _⟩ := parseAux_ok_inv haux
  obtain ⟨v0, _, b0⟩ := readWord_ok_inv w0
  obtain ⟨vd, _, bd⟩ := readWord_ok_inv wd
  obtain ⟨_, _, _, hwfall⟩ := parseAccounts_ok_facts hacc
  refine ⟨?_, hle⟩
  simp only [wfParams]
  refine ⟨?_, hwfall hb, ?_, hpid⟩
  · rw [v0]
    have := decodeLE_bytesAt_lt hb b0
    norm_num at this ⊢
    exact this
  · rw [vd]
    have := decodeLE_bytesAt_lt hb bd
    norm_num at this ⊢
    exact this

theorem readBytes_take {buf : List Nat} {c n : Nat} {bs : List Nat}
    {c2 : Nat} (N : Nat) (hN : N ≤ buf.length)
    (h : readBytes buf c n = .ok (bs, c2)) :
    readBytes (buf.take N) c n =
      if c2 ≤ N then .ok (bs, c2) else .error .truncated := by
  obtain ⟨hbs, hc2, hle⟩ := readBytes_ok_inv h
  subst hbs
  subst hc2
  have hlenN : (buf.take N).length = N := by
    rw [List.length_take]
    omega
  by_cases hcn : c + n ≤ N
  · have hc' : c + n ≤ (buf.take N).length := by omega
    have hslice : bytesAt (buf.take N) c n = bytesAt buf c n := by
      rw [bytesAt, bytesAt, List.drop_take, List.take_take]
      congr 1
      omega
    rw [if_pos hcn]
    unfold readBytes
    rw [if_pos hc', hslice]
  · have hc' : ¬ c + n ≤ (buf.take N).length := by omega
    rw [if_neg hcn]
    unfold readBytes
    rw [if_neg hc']

theorem readWord_take {buf : List Nat} {c n v c2 : Nat} (N : Nat)
    (hN : N ≤ buf.length) (h : readWord buf c n = .ok (v, c2)) :
    readWord (buf.take N) c n =
      if c2 ≤ N then .ok (v, c2) else .error .truncated := by
  obtain ⟨hv, hc2, hle⟩ := readWord_ok_inv h
  subst hv
  subst hc2
  have hrb : readBytes buf c n = .ok (bytesAt buf c n, c + n) := by
    unfold readBytes
    rw [if_pos hle]
  have ht := readBytes_take N hN hrb
  by_cases hcn : c + n ≤ N
  · rw [if_pos hcn] at ht ⊢
    simp only [readWord, ht]
  · rw [if_neg hcn] at ht ⊢
    simp only [readWord, ht]

theorem parseAccount_take {buf : List Nat} {c : Nat} {a : SafeAccountInfo}
    {c2 : Nat} (N : Nat) (hN : N ≤ buf.length)
    (h : parseAccount buf c = .ok (a, c2)) :
    parseAccount (buf.take N) c =
      if c2 ≤ N then .ok (a, c2) else .error .truncated := by
  obtain ⟨e1, e2, e3, e4, e5, e6, e7, holen, hc2, hble⟩ := parseAccount_ok_inv h
  subst hc2
  have t1 := readWord_take N hN e1
  have t2 := readWord_take N hN e2
  have t3 := readWord_take N hN e3
  have t4 := readBytes_take N hN e4
  have t5 := readBytes_take N hN e5
  have t6 := readWord_take N hN e6
  have t7 := readWord_take N hN e7
  by_cases k1 : c + 1 ≤ N
  case neg =>
    rw [if_neg k1] at t1
    rw [if_neg (by omega)]
    simp only [parseAccount, t1]
  case pos =>
  rw [if_pos k1] at t1
  by_cases k2 : c + 1 + 8 ≤ N
  case neg =>
    rw [if_neg k2] at t2
    rw [if_neg (by omega)]
    simp only [parseAccount, t1, t2]
  case pos =>
  rw [if_pos k2] at t2
  by_cases k3 : c + 1 + 8 + 8 ≤ N
  case neg =>
    rw [if_neg k3] at t3
    rw [if_neg (by omega)]
    simp only [parseAccount, t1, t2, t3]
  case pos =>
  rw [if_pos k3] at t3
  by_cases k4 : c + 1 + 8 + 8 + a.data.length ≤ N
  case neg =>
    rw [if_neg k4] at t4
    rw [if_neg (by omega)]
    simp only [parseAccount, t1, t2, t3, t4]
  case pos =>
  rw [if_pos k4] at t4
  by_cases k5 : c + 1 + 8 + 8 + a.data.length + 32 ≤ N
  case neg =>
    rw [if_neg k5] at t5
    rw [if_neg (by omega)]
    simp only [parseAccount, t1, t2, t3, t4, t5]
  case pos =>
  rw [if_pos k5] at t5
  by_cases k6 : c + 1 + 8 + 8 + a.data.length + 32 + 1 ≤ N
  case neg =>
    rw [if_neg k6] at t6
    rw [if_neg (by omega)]
    simp only [parseAccount, t1, t2, t3, t4, t5, t6]
  case pos =>
  rw [if_pos k6] at t6
  by_cases k7 : c + 1 + 8 + 8 + a.data.length + 32 + 1 + 8 ≤ N
  case neg =>
    rw [if_neg k7] at t7
    rw [if_neg (by omega)]
    simp only [parseAccount, t1, t2, t3, t4, t5, t6, t7]
  case pos =>
  rw [if_pos k7] at t7
  rw [if_pos k7]
  simp only [parseAccount, t1, t2, t3, t4, t5, t6, t7]

theorem parseAccounts_take {buf : List Nat} {k c : Nat}
    {as : List SafeAccountInfo} {c2 : Nat} (N : Nat) (hN : N ≤ buf.length)
    (hc : c ≤ N) (h : parseAccounts buf k c = .ok (as, c2)) :
    parseAccounts (buf.take N) k c =
      if c2 ≤ N then .ok (as, c2) else .error .truncated := by
  induction k generalizing c as c2 with
  | zero =>
    simp only [parseAccounts, Except.ok.injEq, Prod.mk.injEq] at h
    obtain ⟨ha, hcc⟩ := h
    subst ha
    subst hcc
    rw [if_pos hc]
    simp [parseAccounts]
  | succ k ih =>
    obtain ⟨r1, h1⟩ : ∃ r, parseAccount buf c = r := ⟨_, rfl⟩
    cases r1 with
    | error e =>
      rw [show parseAccounts buf (k + 1) c = .error e from by
        simp only [parseAccounts, h1]] at h
      exact absurd h (by simp)
    | ok q1 =>
    obtain ⟨a, c1⟩ := q1
    obtain ⟨r2, h2⟩ : ∃ r, parseAccounts buf k c1 = r := ⟨_, rfl⟩
    cases r2 with
    | error e =>
      rw [show parseAccounts buf (k + 1) c = .error e from by
        simp only [parseAccounts, h1, h2]] at h
      exact absurd h (by simp)
    | ok q2 =>
    obtain ⟨as2, cc2⟩ := q2
    rw [show parseAccounts buf (k + 1) c = .ok (a :: as2, cc2) from by
      simp only [parseAccounts, h1, h2]] at h
    simp only [Except.ok.injEq, Prod.mk.injEq] at h
    obtain ⟨ha, hcc⟩ := h
    subst ha
    subst hcc
    have hmono : c1 ≤ cc2 := (parseAccounts_ok_facts h2).2.1
    have t1 := parseAccount_take N hN h1
    by_cases k1 : c1 ≤ N
    · rw [if_pos k1] at t1
      have t2 := ih k1 h2
      by_cases k2 : cc2 ≤ N
      · rw [if_pos k2] at t2
        rw [if_pos k2]
        simp only [parseAccounts, t1, t2]
      · rw [if_neg k2] at t2
        rw [if_neg k2]
        simp only [parseAccounts, t1, t2]
    · rw [if_neg k1] at t1
      rw [if_neg (by omega)]
      simp only [parseAccounts, t1]

theorem parseAux_take {buf : List Nat} {max : Nat} {p : SafeParameters}
    {c2 : Nat} (N : Nat) (hN : N ≤ buf.length)
    (h : parseAux buf max = .ok (p, c2)) :
    parseAux (buf.take N) max =
      if c2 ≤ N then .ok (p, c2) else .error .truncated := by
  obtain ⟨c1, w0, hle, hacc, wd, rd, rp, hpid, hc2e, hble⟩ := parseAux_ok_inv h
  subst hc2e
  have hnm : ¬ p.ka.length > max := by omega
  have t0 := readWord_take N hN w0
  have hmono : 8 ≤ c1 := (parseAccounts_ok_facts hacc).2.1
  by_cases k0 : (8 : Nat) ≤ N
  case neg =>
    rw [if_neg k0] at t0
    rw [if_neg (by omega)]
    simp only [parseAux, t0]
  case pos =>
  rw [if_pos k0] at t0
  have tacc := parseAccounts_take N hN k0 hacc
  by_cases k1 : c1 ≤ N
  case neg =>
    rw [if_neg k1] at tacc
    rw [if_neg (by omega)]
    simp only [parseAux, t0, if_neg hnm, tacc]
  case pos =>
  rw [if_pos k1] at tacc
  have t2 := readWord_take N hN wd
  by_cases k2 : c1 + 8 ≤ N
  case neg =>
    rw [if_neg k2] at t2
    rw [if_neg (by omega)]
    simp only [parseAux, t0, if_neg hnm, tacc, t2]
  case pos =>
  rw [if_pos k2] at t2
  have t3 := readBytes_take N hN rd
  by_cases k3 : c1 + 8 + p.data.length ≤ N
  case neg =>
    rw [if_neg k3] at t3
    rw [if_neg (by omega)]
    simp only [parseAux, t0, if_neg hnm, tacc, t2, t3]
  case pos =>
  rw [if_pos k3] at t3
  have t4 := readBytes_take N hN rp
  by_cases k4 : c1 + 8 + p.data.length + 32 ≤ N
  case neg =>
    rw [if_neg k4] at t4
    rw [if_neg (by omega)]
    simp only [parseAux, t0, if_neg hnm, tacc, t2, t3, t4]
  case pos =>
  rw [if_pos k4] at t4
  rw [if_pos k4]
  simp only [parseAux, t0, if_neg hnm, tacc, t2, t3, t4]

/-- C1: for every input buffer, entrypoint returns SUCCESS exactly when
sol_deserialize succeeds on it and ERROR_INVALID_ARGUMENT exactly when
sol_deserialize fails, and the status depends only on success or failure
of the parse, never on the parsed contents. -/
theorem entrypoint_status_iff (input : List Nat) :
    (entrypoint input = SUCCESS ↔ sol_deserialize input ka_capacity = true) ∧
    (entrypoint input = ERROR_INVALID_ARGUMENT ↔
      sol_deserialize input ka_capacity = false) ∧
    (∀ input2 : List Nat,
      sol_deserialize input ka_capacity = sol_deserialize input2 ka_capacity →
        entrypoint input = entrypoint input2) := by
  have hne : SUCCESS ≠ ERROR_INVALID_ARGUMENT := by
    simp [SUCCESS, ERROR_INVALID_ARGUMENT]
  refine ⟨?_, ?_, ?_⟩
  · cases hs : sol_deserialize input ka_capacity with
    | true => simp [entrypoint, hs]
    | false =>
      simp only [entrypoint, hs, if_pos]
      exact ⟨fun hx => absurd hx.symm hne, fun hx => absurd hx (by simp)⟩
  · cases hs : sol_deserialize input ka_capacity with
    | true =>
      simp only [entrypoint, hs]
      exact ⟨fun hx => absurd hx hne, fun hx => absurd hx (by simp)⟩
    | false => simp [entrypoint, hs]
  · intro input2 h2
    unfold entrypoint
    rw [h2]

/-- C2: every buffer in the binary layout of a well formed parameter block
whose declared account count is at most the capacity parses successfully
to that very block (so the account sequence has exactly count entries in
buffer order), and the leading count field of the buffer is the account
count. -/
theorem parse_wellformed_succeeds (p : SafeParameters) (max : Nat)
    (hwf : wfParams p) (hle : p.ka.length ≤ max) :
    parse (serialize p) max = .ok p ∧
      decodeLE (bytesAt (serialize p) 0 8) = p.ka.length := by
  have hcore := parse_serialize_core p max hwf hle
  constructor
  · unfold parse
    rw [hcore]
  · have hcnt : bytesAt (serialize p) 0 8 = encodeLE 8 p.ka.length := by
      rw [bytesAt, List.drop_zero, serialize]
      rw [show (8 : Nat) = (encodeLE 8 p.ka.length).length from
        (encodeLE_length 8 _).symm]
      rw [List.append_assoc, List.append_assoc, List.append_assoc]
      exact List.take_left _ _
    have h64 : p.ka.length < 2 ^ 64 := by
      simp only [wfParams] at hwf
      exact hwf.1
    rw [hcnt, decodeLE_encodeLE 8 p.ka.length (by norm_num at h64 ⊢; exact h64)]

/-- Witness for C2 at a concrete one account block with capacity 1. -/
theorem parse_wellformed_succeeds_witness :
    parse (serialize pbW) 1 = .ok pbW ∧
      decodeLE (bytesAt (serialize pbW) 0 8) = pbW.ka.length :=
  parse_wellformed_succeeds pbW 1 (by decide) (by decide)

/-- C3: every buffer whose leading declared count exceeds the capacity
fails with TooManyAccounts, whatever the remaining content is. -/
theorem parse_count_over_capacity (count max : Nat) (rest : List Nat)
    (hc : count < 2 ^ 64) (hm : max < count) :
    parse (encodeLE 8 count ++ rest) max = .error .tooManyAccounts := by
  have hw : readWord (encodeLE 8 count ++ rest) 0 8 = .ok (count, 0 + 8) := by
    obtain ⟨r1, _, _⟩ := readBytes_chunk (encodeLE 8 count ++ rest)
      (encodeLE 8 count) rest 0 8 (Nat.zero_le _) rfl
      (encodeLE_length 8 count)
    rw [readWord_of_readBytes r1,
      decodeLE_encodeLE 8 count (by norm_num at hc ⊢; exact hc)]
  simp only [parse, parseAux, hw]
  rw [if_pos hm]

/-- Witness for C3: a buffer declaring two accounts against capacity 1. -/
theorem parse_count_over_capacity_witness :
    parse (encodeLE 8 2 ++ []) 1 = .error .tooManyAccounts :=
  parse_count_over_capacity 2 1 [] (by norm_num) (by norm_num)

/-- C4: every strict prefix of the layout of a well formed parameter block
(the buffer ends before the last required field) fails with Truncated. -/
theorem parse_truncation_error (p : SafeParameters) (max n : Nat)
    (hwf : wfParams p) (hle : p.ka.length ≤ max)
    (hn : n < (serialize p).length) :
    parse ((serialize p).take n) max = .error .truncated := by
  have hcore := parse_serialize_core p max hwf hle
  have ht := parseAux_take n (Nat.le_of_lt hn) hcore
  rw [if_neg (by omega)] at ht
  unfold parse
  rw [ht]

/-- Witness for C4: cutting the sample buffer inside the owner field. -/
theorem parse_truncation_error_witness :
    parse ((serialize pbW).take 57) 1 = .error .truncated :=
  parse_truncation_error pbW 1 57 (by decide) (by decide) (by decide)

/-- C5: the entrypoint passes capacity exactly 1 (the length of its stack
array ka), so every input buffer declaring two or more accounts is
answered with ERROR_INVALID_ARGUMENT. -/
theorem entrypoint_two_accounts (input : List Nat) (count : Nat)
    (hread : readWord input 0 8 = .ok (count, 8)) (h2 : 2 ≤ count) :
    ka_capacity = 1 ∧ entrypoint input = ERROR_INVALID_ARGUMENT := by
  have hparse : parseAux input ka_capacity = .error .tooManyAccounts := by
    simp only [parseAux, hread]
    rw [if_pos (show count > ka_capacity from by
      simp only [ka_capacity]
      omega)]
  refine ⟨rfl, ?_⟩
  simp only [entrypoint, sol_deserialize, parse, hparse, if_true]

/-- Witness for C5: the eight byte count field declaring two accounts. -/
theorem entrypoint_two_accounts_witness :
    ka_capacity = 1 ∧ entrypoint (encodeLE 8 2) = ERROR_INVALID_ARGUMENT :=
  entrypoint_two_accounts (encodeLE 8 2) 2 (by decide) (by norm_num)

/-- C6: parsing is all or nothing: every run either returns a full
parameter block or only one of the typed errors with no partial data, and
the entrypoint exposes only the two status codes. -/
theorem parse_all_or_nothing (buf : List Nat) (max : Nat) :
    ((∃ p, parse buf max = .ok p) ∨
      (∃ e, parse buf max = .error e ∧
        (e = .truncated ∨ e = .tooManyAccounts ∨ e = .malformedLength))) ∧
    (entrypoint buf = SUCCESS ∨ entrypoint buf = ERROR_INVALID_ARGUMENT) := by
  constructor
  · obtain ⟨r, hr⟩ : ∃ r, parse buf max = r := ⟨_, rfl⟩
    cases r with
    | ok p => exact Or.inl ⟨p, hr⟩
    | error e =>
      refine Or.inr ⟨e, hr, ?_⟩
      cases e
      · exact Or.inl rfl
      · exact Or.inr (Or.inl rfl)
      · exact Or.inr (Or.inr rfl)
  · unfold entrypoint
    by_cases hs : sol_deserialize buf ka_capacity = false
    · rw [if_pos hs]
      exact Or.inr rfl
    · rw [if_neg hs]
      exact Or.inl rfl

/-- C7: parse and entrypoint are deterministic pure functions of their
inputs: equal buffer and equal capacity give equal results. -/
theorem parse_deterministic (buf1 buf2 : List Nat) (max1 max2 : Nat)
    (hb : buf1 = buf2) (hm : max1 = max2) :
    parse buf1 max1 = parse buf2 max2 ∧
      entrypoint buf1 = entrypoint buf2 := by
  subst hb
  subst hm
  exact ⟨rfl, rfl⟩

/-- Witness for C7 at the sample buffer. -/
theorem parse_deterministic_witness :
    parse (serialize pbW) 1 = parse (serialize pbW) 1 ∧
      entrypoint (serialize pbW) = entrypoint (serialize pbW) :=
  parse_deterministic (serialize pbW) (serialize pbW) 1 1 rfl rfl

/-- C8: round trip: every parameter block obtained from a successful parse
of a byte buffer serializes back to a buffer that parses to the same block
field for field. -/
theorem parse_roundtrip (buf : List Nat) (max : Nat) (p : SafeParameters)
    (hb : isBytes buf) (h : parse buf max = .ok p) :
    parse (serialize p) max = .ok p := by
  obtain ⟨hwf, hle⟩ := parse_ok_wf hb h
  have hcore := parse_serialize_core p max hwf hle
  unfold parse
  rw [hcore]

/-- Witness for C8 at the sample buffer. -/
theorem parse_roundtrip_witness : parse (serialize pbW) 1 = .ok pbW :=
  parse_roundtrip (serialize pbW) 1 pbW (by decide) (by decide)

/-- C9: parse terminates on every input (it is a total function) and works
in a single pass: the final cursor of a successful run never exceeds the
buffer length, so the work is bounded by the input size. -/
theorem parse_single_pass (buf : List Nat) (max : Nat) :
    (∃ r, parse buf max = r) ∧
      (match parseAux buf max with
        | .ok (_, c) => c ≤ buf.length
        | .error _ => True) := by
  refine ⟨⟨_, rfl⟩, ?_⟩
  obtain ⟨r, hr⟩ : ∃ r, parseAux buf max = r := ⟨_, rfl⟩
  rw [hr]
  cases r with
  | error e => trivial
  | ok q =>
    obtain ⟨p, c⟩ := q
    obtain ⟨c1, _, _, _, _, _, _, _, _, hble⟩ := parseAux_ok_inv hr
    exact hble

/-- C10: every account data region, the instruction data and the program
identifier of a successful parse are slices of the original input buffer,
each lying entirely within its bounds. -/
theorem parse_views (buf : List Nat) (max : Nat) (p : SafeParameters)
    (h : parse buf max = .ok p) :
    (∀ a ∈ p.ka, ∃ off, off + a.data.length ≤ buf.length ∧
      a.data = bytesAt buf off a.data.length) ∧
    (∃ off, off + p.data.length ≤ buf.length ∧
      p.data = bytesAt buf off p.data.length) ∧
    (∃ off, off + p.programId.length ≤ buf.length ∧
      p.programId = bytesAt buf off p.programId.length) := by
  obtain ⟨c2, haux⟩ := parse_ok_iff.mp h
  obtain ⟨c1, _, _, hacc, _, rd, rp, hpid, _, hble⟩ := parseAux_ok_inv haux
  obtain ⟨_, _, hview, _⟩ := parseAccounts_ok_facts hacc
  refine ⟨hview, ?_, ?_⟩
  · obtain ⟨hv, _, hbnd⟩ := readBytes_ok_inv rd
    exact ⟨c1 + 8, hbnd, hv⟩
  · obtain ⟨hv, _, hbnd⟩ := readBytes_ok_inv rp
    refine ⟨c1 + 8 + p.data.length, ?_, ?_⟩
    · rw [hpid]
      exact hbnd
    · rw [hpid]
      exact hv

/-- Witness for C10 at the sample buffer. -/
theorem parse_views_witness :
    (∀ a ∈ pbW.ka, ∃ off, off + a.data.length ≤ (serialize pbW).length ∧
      a.data = bytesAt (serialize pbW) off a.data.length) ∧
    (∃ off, off + pbW.data.length ≤ (serialize pbW).length ∧
      pbW.data = bytesAt (serialize pbW) off pbW.data.length) ∧
    (∃ off, off + pbW.programId.length ≤ (serialize pbW).length ∧
      pbW.programId = bytesAt (serialize pbW) off pbW.programId.length) :=
  parse_views (serialize pbW) 1 pbW (by decide)
